import Mathlib

/-!
# Helios Core — shallow embedding and verification

A shallow embedding of the Helios Core canonicalization + content-hash
pipeline (package `canon`, `object`, `hash`, `verify` and the CLI
conversion helpers), with theorems settling the frozen claims about it.

Go strings are modelled as lists of byte values (`Bytes`); Go's dynamic
`interface{}` JSON values (as produced by `json.Decoder` with
`UseNumber()`) are modelled by the inductive `GoValue`; fallible Go
functions returning `(T, error)` are modelled with `Res`.
-/

namespace Helios

/-- Go strings are byte slices; we model them as lists of byte values. -/
abbrev Bytes := List Nat

/-- UTF-8 encoding of a single code point (used only to build byte-string
literals from Lean string literals; all literals in this file are ASCII). -/
def charBytes (n : Nat) : Bytes :=
  if n < 0x80 then [n]
  else if n < 0x800 then [0xC0 + n / 0x40, 0x80 + n % 0x40]
  else if n < 0x10000 then [0xE0 + n / 0x1000, 0x80 + (n / 0x40) % 0x40, 0x80 + n % 0x40]
  else [0xF0 + n / 0x40000, 0x80 + (n / 0x1000) % 0x40, 0x80 + (n / 0x40) % 0x40, 0x80 + n % 0x40]

/-- The UTF-8 bytes of a Lean string literal. -/
def strBytes (s : String) : Bytes := s.data.flatMap (fun c => charBytes c.toNat)

/-- Go `s < t` on strings: lexicographic comparison over bytes. -/
def strLt : Bytes → Bytes → Bool
  | [], [] => false
  | [], _ :: _ => true
  | _ :: _, [] => false
  | a :: as, b :: bs => if a < b then true else if b < a then false else strLt as bs

/-- Byte-wise `≤` on Go strings (the negation of the reversed strict order). -/
def strLe (s t : Bytes) : Bool := !(strLt t s)

theorem strLt_asymm : ∀ s t : Bytes, strLt s t = true → strLt t s = true → False := by
  intro s
  induction s with
  | nil => intro t h1 h2; cases t <;> simp [strLt] at h1 h2
  | cons a as ih =>
    intro t h1 h2
    cases t with
    | nil => simp [strLt] at h1
    | cons b bs =>
      simp only [strLt] at h1 h2
      by_cases hab : a < b
      · have hba : ¬ b < a := Nat.lt_asymm hab
        simp [hab, hba] at h2
      · by_cases hba : b < a
        · simp [hab, hba] at h1
        · simp [hab, hba] at h1 h2
          exact ih bs h1 h2

theorem strLt_total_eq : ∀ s t : Bytes, strLt s t = false → strLt t s = false → s = t := by
  intro s
  induction s with
  | nil => intro t h1 _; cases t with
    | nil => rfl
    | cons b bs => simp [strLt] at h1
  | cons a as ih =>
    intro t h1 h2
    cases t with
    | nil => simp [strLt] at h2
    | cons b bs =>
      simp only [strLt] at h1 h2
      by_cases hab : a < b
      · simp [hab] at h1
      · by_cases hba : b < a
        · simp [hab, hba] at h2
        · simp [hab, hba] at h1 h2
          have : a = b := Nat.le_antisymm (Nat.le_of_not_lt hba) (Nat.le_of_not_lt hab)
          rw [this, ih bs h1 h2]

theorem strLt_trans : ∀ s t u : Bytes,
    strLt s t = true → strLt t u = true → strLt s u = true := by
  intro s
  induction s with
  | nil =>
    intro t u h1 h2
    cases t with
    | nil => simp [strLt] at h1
    | cons b bs =>
      cases u with
      | nil => simp [strLt] at h2
      | cons c cs => simp [strLt]
  | cons a as ih =>
    intro t u h1 h2
    cases t with
    | nil => simp [strLt] at h1
    | cons b bs =>
      cases u with
      | nil => simp [strLt] at h2
      | cons c cs =>
        simp only [strLt] at h1 h2 ⊢
        by_cases hab : a < b
        · by_cases hbc : b < c
          · simp [Nat.lt_trans hab hbc]
          · by_cases hcb : c < b
            · simp [hbc, hcb] at h2
            · have : b = c := Nat.le_antisymm (Nat.le_of_not_lt hcb) (Nat.le_of_not_lt hbc)
              subst this
              simp [hab]
        · by_cases hba : b < a
          · simp [hab, hba] at h1
          · have hab' : a = b := Nat.le_antisymm (Nat.le_of_not_lt hba) (Nat.le_of_not_lt hab)
            subst hab'
            by_cases hac : a < c
            · simp [hac]
            · by_cases hca : c < a
              · simp [hac, hca] at h2
              · simp [hab, hac, hca] at h1 h2 ⊢
                exact ih bs cs h1 h2

/-- `strLe` as a relation, for use with `List.insertionSort`. -/
def strLeR (s t : Bytes) : Prop := strLe s t = true

instance : DecidableRel strLeR := fun s t => by
  unfold strLeR; infer_instance

theorem strLeR_total : ∀ s t : Bytes, strLeR s t ∨ strLeR t s := by
  intro s t
  simp only [strLeR, strLe, Bool.not_eq_true']
  by_cases h : strLt t s = true
  · right
    by_cases h2 : strLt s t = true
    · exact absurd (strLt_asymm s t h2 h) (fun f => f)
    · simp [Bool.not_eq_true] at h2; exact h2
  · left; simp [Bool.not_eq_true] at h; exact h

theorem strLeR_trans : ∀ s t u : Bytes, strLeR s t → strLeR t u → strLeR s u := by
  intro s t u h1 h2
  simp only [strLeR, strLe, Bool.not_eq_true'] at h1 h2 ⊢
  by_cases h : strLt u s = true
  · exfalso
    by_cases hst : strLt s t = true
    · have := strLt_trans u s t h hst
      rw [h2] at this; cases this
    · have hst' : strLt s t = false := by simpa using hst
      have heq : s = t := strLt_total_eq s t hst' h1
      subst heq
      rw [h] at h2; cases h2
  · simpa using h

theorem strLeR_antisymm : ∀ s t : Bytes, strLeR s t → strLeR t s → s = t := by
  intro s t h1 h2
  simp only [strLeR, strLe, Bool.not_eq_true'] at h1 h2
  exact strLt_total_eq s t h2 h1

/-- Strict order from `≤` plus distinctness (trichotomy of `strLt`). -/
theorem strLt_of_le_of_ne {s t : Bytes} (h : strLeR s t) (hne : s ≠ t) : strLt s t = true := by
  simp only [strLeR, strLe, Bool.not_eq_true'] at h
  by_cases hst : strLt s t = true
  · exact hst
  · simp [Bool.not_eq_true] at hst
    exact absurd (strLt_total_eq s t hst h) hne

/-! ## SHA-256 over byte lists (crypto/sha256) -/

/-- 2^32, the modulus for the 32-bit words of SHA-256. -/
def M32 : Nat := 4294967296

def rotr32 (n x : Nat) : Nat := ((x >>> n) ||| (x <<< (32 - n))) % M32

def bigSigma0 (x : Nat) : Nat := (rotr32 2 x) ^^^ (rotr32 13 x) ^^^ (rotr32 22 x)
def bigSigma1 (x : Nat) : Nat := (rotr32 6 x) ^^^ (rotr32 11 x) ^^^ (rotr32 25 x)
def smallSigma0 (x : Nat) : Nat := (rotr32 7 x) ^^^ (rotr32 18 x) ^^^ (x >>> 3)
def smallSigma1 (x : Nat) : Nat := (rotr32 17 x) ^^^ (rotr32 19 x) ^^^ (x >>> 10)

/-- The 64 SHA-256 round constants. -/
def shaK : List Nat :=
  [1116352408, 1899447441, 3049323471, 3921009573, 961987163,
   1508970993, 2453635748, 2870763221, 3624381080, 310598401,
   607225278, 1426881987, 1925078388, 2162078206, 2614888103,
   3248222580, 3835390401, 4022224774, 264347078, 604807628,
   770255983, 1249150122, 1555081692, 1996064986, 2554220882,
   2821834349, 2952996808, 3210313671, 3336571891, 3584528711,
   113926993, 338241895, 666307205, 773529912, 1294757372,
   1396182291, 1695183700, 1986661051, 2177026350, 2456956037,
   2730485921, 2820302411, 3259730800, 3345764771, 3516065817,
   3600352804, 4094571909, 275423344, 430227734, 506948616,
   659060556, 883997877, 958139571, 1322822218, 1537002063,
   1747873779, 1955562222, 2024104815, 2227730452, 2361852424,
   2428436474, 2756734187, 3204031479, 3329325298]

/-- The eight 32-bit working variables of SHA-256. -/
structure ShaState where
  a : Nat
  b : Nat
  c : Nat
  d : Nat
  e : Nat
  f : Nat
  g : Nat
  h : Nat
deriving Repr, DecidableEq

def shaH0 : ShaState :=
  ⟨1779033703, 3144134277, 1013904242, 2773480762,
   1359893119, 2600822924, 528734635, 1541459225⟩

/-- Pad a message per SHA-256: `0x80`, zeros, then the 64-bit big-endian bit length. -/
def shaPad (msg : Bytes) : Bytes :=
  let L := msg.length
  let zeros := (64 + 56 - (L + 1) % 64) % 64
  let bitLen := 8 * L
  msg ++ [0x80] ++ List.replicate zeros 0 ++
    [bitLen >>> 56 % 256, bitLen >>> 48 % 256, bitLen >>> 40 % 256, bitLen >>> 32 % 256,
     bitLen >>> 24 % 256, bitLen >>> 16 % 256, bitLen >>> 8 % 256, bitLen % 256]

/-- Split into 64-byte blocks (the padded length is a multiple of 64). -/
def shaChunks : Bytes → Bytes → List Bytes
  | [], acc => if acc.isEmpty then [] else [acc.reverse]
  | b :: rest, acc =>
    if acc.length = 63 then (b :: acc).reverse :: shaChunks rest []
    else shaChunks rest (b :: acc)

/-- Group 4 bytes big-endian into 32-bit words. -/
def shaWords : Bytes → List Nat
  | b0 :: b1 :: b2 :: b3 :: rest => (((b0 * 256 + b1) * 256 + b2) * 256 + b3) :: shaWords rest
  | _ => []

/-- Extend the message schedule; the word list is kept newest-first. -/
def shaExtend : Nat → List Nat → List Nat
  | 0, rw => rw
  | n + 1, rw =>
    let w := (smallSigma1 (rw.getD 1 0) + rw.getD 6 0 + smallSigma0 (rw.getD 14 0) + rw.getD 15 0) % M32
    shaExtend n (w :: rw)

def shaSchedule (block : Bytes) : List Nat :=
  (shaExtend 48 (shaWords block).reverse).reverse

def shaRound (st : ShaState) (kw : Nat × Nat) : ShaState :=
  let t1 := (st.h + bigSigma1 st.e + ((st.e &&& st.f) ^^^ ((st.e ^^^ (M32 - 1)) &&& st.g))
      + kw.1 + kw.2) % M32
  let t2 := (bigSigma0 st.a + ((st.a &&& st.b) ^^^ (st.a &&& st.c) ^^^ (st.b &&& st.c))) % M32
  ⟨(t1 + t2) % M32, st.a, st.b, st.c, (st.d + t1) % M32, st.e, st.f, st.g⟩

def shaCompress (st : ShaState) (block : Bytes) : ShaState :=
  let w := shaSchedule block
  let r := (shaK.zip w).foldl shaRound st
  ⟨(st.a + r.a) % M32, (st.b + r.b) % M32, (st.c + r.c) % M32, (st.d + r.d) % M32,
   (st.e + r.e) % M32, (st.f + r.f) % M32, (st.g + r.g) % M32, (st.h + r.h) % M32⟩

def wordBytes (w : Nat) : Bytes := [w >>> 24 % 256, w >>> 16 % 256, w >>> 8 % 256, w % 256]

/-- SHA-256 digest (32 bytes) of a byte string. -/
def sha256 (msg : Bytes) : Bytes :=
  let st := (shaChunks (shaPad msg) []).foldl shaCompress shaH0
  wordBytes st.a ++ wordBytes st.b ++ wordBytes st.c ++ wordBytes st.d ++
  wordBytes st.e ++ wordBytes st.f ++ wordBytes st.g ++ wordBytes st.h

/-- Lowercase hex digit, as a byte. -/
def hexDigit (n : Nat) : Nat := if n < 10 then 48 + n else 87 + n

/-- `encoding/hex.EncodeToString`: lowercase hex of a byte string. -/
def hexEncode (bs : Bytes) : Bytes := bs.flatMap (fun b => [hexDigit (b / 16), hexDigit (b % 16)])

theorem sha256_length (msg : Bytes) : (sha256 msg).length = 32 := by
  simp [sha256, wordBytes]

theorem hexEncode_length (bs : Bytes) : (hexEncode bs).length = 2 * bs.length := by
  induction bs with
  | nil => simp [hexEncode]
  | cons b rest ih =>
    simp only [hexEncode, List.flatMap_cons] at ih ⊢
    simp [ih]
    omega

/-! ## Dynamic JSON values

`GoValue` models the `interface{}` values that flow through the canon
package: `nil`, `bool`, `json.Number` (kept as its source text), Go `int`
and `int64` (merged into one integer constructor), `string`,
`[]interface{}` and `map[string]interface{}`.  A `float64` constructor is
not modelled: every JSON ingest path in the repository decodes with
`UseNumber()`, which never produces a `float64`, and no other caller
passes one.  Go maps are modelled as association lists with distinct keys
(a Go map cannot hold duplicate keys); lookups take the first match. -/

inductive GoValue : Type where
  | vnull : GoValue
  | vbool (b : Bool) : GoValue
  | vnum (s : Bytes) : GoValue
  | vint (n : Int) : GoValue
  | vstr (s : Bytes) : GoValue
  | varr (xs : List GoValue) : GoValue
  | vmap (m : List (Bytes × GoValue)) : GoValue

/-- A `map[string]interface{}` (association list; keys distinct in Go). -/
abbrev GoMap := List (Bytes × GoValue)

/-- Go map lookup `m[k]` (first matching key; Go maps have unique keys). -/
def mapGet : GoMap → Bytes → Option GoValue
  | [], _ => none
  | (k', v) :: rest, k => if k' = k then some v else mapGet rest k

/-- Go map assignment `m[k] = v`: replace the existing entry, else append. -/
def mapSet : GoMap → Bytes → GoValue → GoMap
  | [], k, v => [(k, v)]
  | (k', v') :: rest, k, v => if k' = k then (k, v) :: rest else (k', v') :: mapSet rest k v

/-- The error taxonomy of the canon/hash/verify packages.  Each constructor
corresponds to one `fmt.Errorf` call site, with the data interpolated into
the message carried as payload; the hasher's `%w`-wrapping sites become
`wrapTs` and `wrapCanon`.  The `unsupported type %T` default branches of
`canonicalizeValue` and `validateIngest` are unreachable in this model
because `GoValue` covers exactly the dynamic types that reach them. -/
inductive CanonErr : Type where
  | nullProhibited : CanonErr
  | tsNonUTC (s : Bytes) : CanonErr
  | tsNoFrac (s : Bytes) : CanonErr
  | tsBadFrac (n : Nat) (s : Bytes) : CanonErr
  | tsParse (s : Bytes) : CanonErr
  | wrapTs (e : CanonErr) : CanonErr
  | wrapCanon (e : CanonErr) : CanonErr
  | ingestNull (path : Bytes) : CanonErr
  | ingestFloat (s path : Bytes) : CanonErr
  | ingestIntRange (s path : Bytes) : CanonErr
  | ingestUnsupported (path : Bytes) : CanonErr
  | decodeTypeErr : CanonErr
deriving DecidableEq, Repr

/-- `CANON_ERR_TIMESTAMP_INVALID_PRECISION` covers both precision failure
sites of `NormalizeTimestamp` ("got none" and "got %d"). -/
def CanonErr.isInvalidPrecision : CanonErr → Bool
  | .tsNoFrac _ => true
  | .tsBadFrac _ _ => true
  | _ => false

/-- A Go `(T, error)` result: exactly one of the value or the error. -/
inductive Res (α : Type) : Type where
  | ok (a : α) : Res α
  | err (e : CanonErr) : Res α
deriving DecidableEq, Repr

def Res.isOk : Res α → Bool
  | .ok _ => true
  | .err _ => false

/-! ## Canon — canonical serialization primitives (internal/canon) -/

/-- Models `NormalizeString`, which applies `norm.NFC.String` from
`golang.org/x/text/unicode/norm` (a library outside this repository).
NFC normalization is the identity on ASCII strings, and every concrete
string evaluated in this development is ASCII; the universal theorems
below hold for an arbitrary function in this position, so the identity is
used as the model. -/
def NormalizeString (s : Bytes) : Bytes := s

/-- `strings.HasSuffix(s, "Z")`. -/
def endsWithZ (s : Bytes) : Bool := s.getLast? = some 0x5A

/-- `strings.LastIndex(s, c)` for a single-byte pattern: index of the last
occurrence, or `none` (Go returns −1). -/
def lastIndexOf (b : Nat) : Bytes → Option Nat
  | [] => none
  | x :: rest =>
    match lastIndexOf b rest with
    | some j => some (j + 1)
    | none => if x = b then some 0 else none

/-- Go slice `s[a:b]`. -/
def listSlice (s : Bytes) (a b : Nat) : Bytes := (s.take b).drop a

def isDigit (b : Nat) : Bool := 48 ≤ b && b ≤ 57

/-- Numeric value of a digit slice (big-endian decimal). -/
def digitsVal (s : Bytes) : Nat := s.foldl (fun acc b => acc * 10 + (b - 48)) 0

/-- Go leap-year rule (`time` package): divisible by 4 and not by 100,
or divisible by 400. -/
def isLeapYear (y : Nat) : Bool := (y % 4 = 0 && y % 100 ≠ 0) || y % 400 = 0

def daysInMonth (y m : Nat) : Nat :=
  if m = 2 then (if isLeapYear y then 29 else 28)
  else if m = 4 || m = 6 || m = 9 || m = 11 then 30
  else 31

/-- Models `time.Parse("2006-01-02T15:04:05.000Z", s)` succeeding.  The
layout is fully fixed-width (4-digit year, zero-padded 2-digit fields, a
literal `T`, exactly 3 fractional digits, a literal `Z`), so a string
parses iff it has exactly this shape with all components in range; and
re-formatting the parsed time with the same layout reproduces the input
string byte-for-byte. -/
def goParseTimestamp (s : Bytes) : Bool :=
  s.length = 24 &&
  (listSlice s 0 4).all isDigit &&
  s.getD 4 0 = 0x2D &&
  (listSlice s 5 7).all isDigit &&
  s.getD 7 0 = 0x2D &&
  (listSlice s 8 10).all isDigit &&
  s.getD 10 0 = 0x54 &&
  (listSlice s 11 13).all isDigit &&
  s.getD 13 0 = 0x3A &&
  (listSlice s 14 16).all isDigit &&
  s.getD 16 0 = 0x3A &&
  (listSlice s 17 19).all isDigit &&
  s.getD 19 0 = 0x2E &&
  (listSlice s 20 23).all isDigit &&
  s.getD 23 0 = 0x5A &&
  (let m := digitsVal (listSlice s 5 7)
   let d := digitsVal (listSlice s 8 10)
   1 ≤ m && m ≤ 12 && 1 ≤ d && d ≤ daysInMonth (digitsVal (listSlice s 0 4)) m &&
   digitsVal (listSlice s 11 13) ≤ 23 &&
   digitsVal (listSlice s 14 16) ≤ 59 &&
   digitsVal (listSlice s 17 19) ≤ 59)

/-- `NormalizeTimestamp`: reject a missing `Z` suffix, then a missing `.`,
then a fractional part that is not exactly 3 characters, then parse with
the fixed layout; on success the string is re-emitted unchanged (the
fixed-width layout makes format-after-parse the identity). -/
def NormalizeTimestamp (s : Bytes) : Res Bytes :=
  if !(endsWithZ s) then .err (.tsNonUTC s)
  else
    match lastIndexOf 0x2E s with
    | none => .err (.tsNoFrac s)
    | some dotIdx =>
      let frac := listSlice s (dotIdx + 1) (s.length - 1)
      if frac.length ≠ 3 then .err (.tsBadFrac frac.length s)
      else if goParseTimestamp s then .ok s
      else .err (.tsParse s)

/-- `strconv.Itoa` / `strconv.FormatInt(_, 10)`. -/
def intBytes (i : Int) : Bytes :=
  if i < 0 then 0x2D :: (Nat.toDigits 10 i.natAbs).map Char.toNat
  else (Nat.toDigits 10 i.toNat).map Char.toNat

/-- One step of `canonicalizeString`'s escape loop.  The Go loop decodes
runes, but its decisions depend only on the current byte: bytes ≥ 0x20
other than `"` and `\` are written raw (multi-byte runes are copied as
their raw UTF-8 bytes, and invalid bytes are copied raw as well), so a
byte-by-byte model emits exactly the same output. -/
def escapeByte (b : Nat) : Bytes :=
  if b = 0x22 then [0x5C, 0x22]
  else if b = 0x5C then [0x5C, 0x5C]
  else if b = 8 then [0x5C, 0x62]
  else if b = 12 then [0x5C, 0x66]
  else if b = 10 then [0x5C, 0x6E]
  else if b = 13 then [0x5C, 0x72]
  else if b = 9 then [0x5C, 0x74]
  else if b < 0x20 then [0x5C, 0x75, 0x30, 0x30, hexDigit (b / 16), hexDigit (b % 16)]
  else [b]

/-- `canonicalizeString`: a JSON string with UTF-8 preserved.  The Go
signature returns `([]byte, error)` but no branch ever produces an error,
so the model is total. -/
def canonicalizeString (s : Bytes) : Bytes := 0x22 :: (s.flatMap escapeByte ++ [0x22])

/-- Comma-join a list of byte strings (the separator loop of
`canonicalizeMap` / `canonicalizeArray`). -/
def joinComma : List Bytes → Bytes
  | [] => []
  | [x] => x
  | x :: rest => x ++ 0x2C :: joinComma rest

/-- Key order used by `sort.Strings` in `canonicalizeMap`, lifted to the
rendered `(key, valueBytes)` pairs. -/
def pairKeyLe (p q : Bytes × Bytes) : Prop := strLeR p.1 q.1

instance : DecidableRel pairKeyLe := fun p q => by
  unfold pairKeyLe; infer_instance

/-- Assemble a serialized map from rendered `(key, valueBytes)` pairs:
sort by key ascending, emit `{`, the `escapedKey:value` pairs separated by
`,`, then `}`.  Go sorts the key slice with `sort.Strings` and then looks
each value up; for the duplicate-free key sets a Go map guarantees, that
is the same as sorting the pairs. -/
def encodeMapPairs (pairs : List (Bytes × Bytes)) : Bytes :=
  0x7B :: (joinComma ((List.insertionSort pairKeyLe pairs).map
    (fun p => canonicalizeString p.1 ++ 0x3A :: p.2)) ++ [0x7D])

/-- Assemble a serialized array from rendered element byte strings. -/
def encodeArrayElems (elems : List Bytes) : Bytes :=
  0x5B :: (joinComma elems ++ [0x5D])

mutual

/-- `canonicalizeValue` (internal/canon/serializer.go): `nil` is rejected
with `CANON_ERR_NULL_PROHIBITED`; booleans, numbers, strings, maps and
arrays are serialized canonically.  The `float64` branch is not modelled
(see `GoValue`); the `default` branch is unrepresentable. -/
def canonicalizeValue : GoValue → Res Bytes
  | .vnull => .err .nullProhibited
  | .vbool b => .ok (if b then strBytes "true" else strBytes "false")
  | .vnum s => .ok s
  | .vint n => .ok (intBytes n)
  | .vstr s => .ok (canonicalizeString s)
  | .vmap m =>
    match canonMapPairs m with
    | .err e => .err e
    | .ok pairs => .ok (encodeMapPairs pairs)
  | .varr xs =>
    match canonElems xs with
    | .err e => .err e
    | .ok elems => .ok (encodeArrayElems elems)

/-- Render each map entry's value (the serialization error of the first
failing entry is returned; the only possible serialization error is
`nullProhibited`, which carries no position, so rendering in entry order
agrees with Go's sorted-key order on which entry reports it). -/
def canonMapPairs : List (Bytes × GoValue) → Res (List (Bytes × Bytes))
  | [] => .ok []
  | (k, v) :: rest =>
    match canonicalizeValue v with
    | .err e => .err e
    | .ok vb =>
      match canonMapPairs rest with
      | .err e => .err e
      | .ok tail => .ok ((k, vb) :: tail)

/-- Render the elements of an array in insertion order. -/
def canonElems : List GoValue → Res (List Bytes)
  | [] => .ok []
  | v :: rest =>
    match canonicalizeValue v with
    | .err e => .err e
    | .ok vb =>
      match canonElems rest with
      | .err e => .err e
      | .ok tail => .ok (vb :: tail)

end

/-- `canonicalizeMap`: serialize a map with explicitly sorted keys. -/
def canonicalizeMap (m : GoMap) : Res Bytes :=
  match canonMapPairs m with
  | .err e => .err e
  | .ok pairs => .ok (encodeMapPairs pairs)

/-- `canonicalizeArray`: serialize an array preserving insertion order. -/
def canonicalizeArray (xs : List GoValue) : Res Bytes :=
  match canonElems xs with
  | .err e => .err e
  | .ok elems => .ok (encodeArrayElems elems)

/-- `CanonicalizeObject` forwards a map to `canonicalizeValue`. -/
def CanonicalizeObject (m : GoMap) : Res Bytes := canonicalizeValue (.vmap m)

theorem canonicalizeValue_vmap (m : GoMap) :
    canonicalizeValue (.vmap m) = canonicalizeMap m := by
  rw [canonicalizeValue, canonicalizeMap]

theorem canonicalizeValue_varr (xs : List GoValue) :
    canonicalizeValue (.varr xs) = canonicalizeArray xs := by
  rw [canonicalizeValue, canonicalizeArray]

/-! ## Relationship sort and ingest validation (internal/canon) -/

/-- The Go type assertion `m["key"].(string)` with its zero-value default:
a missing or non-string entry yields `""`. -/
def relGetStr (m : GoMap) (k : Bytes) : Bytes :=
  match mapGet m k with
  | some (.vstr s) => s
  | _ => []

/-- The comparator passed to `sort.SliceStable` in `SortRelationships`:
compare by `key`, then by `type` when the keys are equal. -/
def relMapLess (a b : GoMap) : Bool :=
  let ka := relGetStr a (strBytes "key")
  let kb := relGetStr b (strBytes "key")
  if ka ≠ kb then strLt ka kb
  else strLt (relGetStr a (strBytes "type")) (relGetStr b (strBytes "type"))

/-- The non-strict order induced by `relMapLess`. -/
def relMapLe (a b : GoMap) : Prop := relMapLess b a = false

instance : DecidableRel relMapLe := fun a b => by
  unfold relMapLe; infer_instance

/-- `SortRelationships`: sort relationship maps by key, then type.
`sort.SliceStable` is modelled by insertion sort under the induced
non-strict order; on the maps the hasher passes (built by
`RelationshipToMap`), comparator-equivalent elements are identical maps,
so every correct sort — stable or not — produces the same sequence. -/
def SortRelationships (rels : List GoMap) : List GoMap :=
  List.insertionSort relMapLe rels

/-- `RelationshipToMap`: the explicit two-key map for a relationship. -/
def RelationshipToMap (key typ : Bytes) : GoMap :=
  [(strBytes "key", .vstr key), (strBytes "type", .vstr typ)]

/-- `strings.Contains(s, ".") || strings.Contains(s, "e") ||
strings.Contains(s, "E")` on a numeric literal. -/
def hasFloatChar (s : Bytes) : Bool := s.any (fun b => b = 0x2E || b = 0x65 || b = 0x45)

/-- `json.Number(s).Int64()` succeeding: `strconv.ParseInt(s, 10, 64)`
succeeds iff `s` is an optional ASCII sign followed by at least one digit
and the value fits in a signed 64-bit integer. -/
def int64Ok (s : Bytes) : Bool :=
  match s with
  | [] => false
  | b :: rest =>
    let neg := b = 0x2D
    let digits := if b = 0x2D || b = 0x2B then rest else s
    !digits.isEmpty && digits.all isDigit &&
      (if neg then digitsVal digits ≤ 2 ^ 63 else digitsVal digits < 2 ^ 63)

/-- `fmt.Sprintf("%s[%d]", path, i)`'s suffix for array element paths. -/
def indexPath (path : Bytes) (i : Nat) : Bytes :=
  path ++ 0x5B :: ((Nat.toDigits 10 i).map Char.toNat ++ [0x5D])

mutual

/-- `validateIngest`: recursive ingest validation.  RULE-010 rejects any
null; RULE-002 rejects a `json.Number` containing `.`, `e` or `E`;
RULE-009 rejects an integer literal outside the signed 64-bit range.
Strings and booleans pass; native Go integers hit the `default` branch
(unreachable from JSON decoded with `UseNumber`).  Go iterates a map's
entries in randomized order, so when several entries violate a rule the
reported path is nondeterministic in Go; the model iterates in entry
order. -/
def validateIngest : GoValue → Bytes → Res Unit
  | .vnull, path => .err (.ingestNull path)
  | .vnum s, path =>
    if hasFloatChar s then .err (.ingestFloat s path)
    else if int64Ok s then .ok () else .err (.ingestIntRange s path)
  | .vstr _, _ => .ok ()
  | .vbool _, _ => .ok ()
  | .vint _, path => .err (.ingestUnsupported path)
  | .vmap m, path => validateIngestPairs m path
  | .varr xs, path => validateIngestList xs path 0

def validateIngestPairs : List (Bytes × GoValue) → Bytes → Res Unit
  | [], _ => .ok ()
  | (k, v) :: rest, path =>
    match validateIngest v (path ++ 0x2E :: k) with
    | .err e => .err e
    | .ok _ => validateIngestPairs rest path

def validateIngestList : List GoValue → Bytes → Nat → Res Unit
  | [], _, _ => .ok ()
  | v :: rest, path, i =>
    match validateIngest v (indexPath path i) with
    | .err e => .err e
    | .ok _ => validateIngestList rest path (i + 1)

end

/-- `ValidateIngestValue` starts the recursion at the empty path. -/
def ValidateIngestValue (v : GoValue) : Res Unit := validateIngest v []

/-! ## Object model (internal/object) -/

/-- `object.Relationship`. -/
structure Relationship where
  key : Bytes
  type : Bytes
deriving DecidableEq, Repr

/-- `object.MemoryObject`: the six hashed fields and the five excluded
operational fields.  `Value` is a dynamic JSON value; a Go `nil` value
(from an absent or JSON-`null` `value`) is `GoValue.vnull`.  `Confidence`
is a `float64` that no hashed computation ever reads; it is modelled as
the raw decoded JSON value rather than bit-exact floating point. -/
structure MemoryObject where
  category : Bytes
  created_at : Bytes
  key : Bytes
  relationships : List Relationship
  source : Bytes
  value : GoValue
  updated_at : Bytes
  version : Int
  access_count : Int
  last_accessed : Bytes
  confidence_raw : Option GoValue

/-- The Go zero value of `MemoryObject`. -/
def MemoryObject.zero : MemoryObject :=
  ⟨[], [], [], [], [], .vnull, [], 0, 0, [], none⟩

/-- `object.HashInput`: exactly the 6 hash-relevant fields. -/
structure HashInput where
  category : Bytes
  created_at : Bytes
  key : Bytes
  relationships : List Relationship
  source : Bytes
  value : GoValue

/-- `object.NewHashInput`: projection of the 6 hashed fields. -/
def NewHashInput (obj : MemoryObject) : HashInput :=
  ⟨obj.category, obj.created_at, obj.key, obj.relationships, obj.source, obj.value⟩

/-! ## Hasher (internal/hash) -/

/-- The Go test `obj.Value == nil`. -/
def isNullValue : GoValue → Bool
  | .vnull => true
  | _ => false

/-- Step 3 of `ContentHash`: the relationship maps built from the input
records via `RelationshipToMap`. -/
def relMapsOf (rels : List Relationship) : List GoMap :=
  rels.map (fun r => RelationshipToMap r.key r.type)

/-- The NFC pass over one sorted relationship map (`sortedRels[i]["key"]`
and `["type"]` are re-assigned when they hold strings). -/
def normalizeRelMap (m : GoMap) : GoMap :=
  let m1 := match mapGet m (strBytes "key") with
    | some (.vstr s) => mapSet m (strBytes "key") (.vstr (NormalizeString s))
    | _ => m
  match mapGet m1 (strBytes "type") with
  | some (.vstr s) => mapSet m1 (strBytes "type") (.vstr (NormalizeString s))
  | _ => m1

/-- The NFC pass over `Value` when it is a string. -/
def normalizeValueField : GoValue → GoValue
  | .vstr s => .vstr (NormalizeString s)
  | v => v

/-- Steps 3–6 of `ContentHash` after timestamp normalization: sort and
NFC-normalize the relationship maps, NFC-normalize the scalar fields,
build the explicit field map (the hasher inserts
`_helios_schema_version = "1"` alongside the 6 semantic fields), then
canonicalize and hash.  Factored out of `ContentHash` so that theorems
can rewrite a single argument; the data flow is exactly the hasher's. -/
def contentHashFields (category key source ts : Bytes) (value : GoValue)
    (sortedRels : List GoMap) : Res Bytes :=
  let fields : GoMap :=
    [(strBytes "_helios_schema_version", .vstr (strBytes "1")),
     (strBytes "category", .vstr category),
     (strBytes "created_at", .vstr ts),
     (strBytes "key", .vstr key),
     (strBytes "relationships", .varr (sortedRels.map GoValue.vmap)),
     (strBytes "source", .vstr source),
     (strBytes "value", value)]
  match CanonicalizeObject fields with
  | .err e => .err (.wrapCanon e)
  | .ok canonical => .ok (hexEncode (sha256 canonical))

/-- `ContentHash` from the projected `HashInput` on: timestamp
normalization (wrapped error on failure), relationship map construction,
sort, NFC normalization, field map construction, canonicalization and
SHA-256 → lowercase hex. -/
def contentHashFrom (inp : HashInput) : Res Bytes :=
  match NormalizeTimestamp inp.created_at with
  | .err e => .err (.wrapTs e)
  | .ok ts =>
    contentHashFields (NormalizeString inp.category) (NormalizeString inp.key)
      (NormalizeString inp.source) ts (normalizeValueField inp.value)
      ((SortRelationships (relMapsOf inp.relationships)).map normalizeRelMap)

/-- `hash.ContentHash`: the step-0 null-prohibition check on `obj.Value`,
then the pipeline over the 6-field `HashInput` projection. -/
def ContentHash (obj : MemoryObject) : Res Bytes :=
  if isNullValue obj.value then .err .nullProhibited
  else contentHashFrom (NewHashInput obj)

/-! ## Verifier (internal/verify) and the CLI conversion (cmd/helios) -/

/-- `verify.TestVector` (the decoded struct; JSON tags `name`,
`description`, `input`, `expected_content_hash`). -/
structure TestVector where
  name : Bytes
  description : Bytes
  input : GoMap
  expected_content_hash : Bytes

/-- `verify.VerifyResult`. -/
structure VerifyResult where
  name : Bytes
  expected : Bytes
  got : Bytes
  pass : Bool
deriving DecidableEq, Repr

/-- The verifier's error outcomes: a per-vector hash failure (wrapping the
hash error, aborting the loop) or the aggregate mismatch count. -/
inductive VerifyErr : Type where
  | vectorFailed (name : Bytes) (e : CanonErr) : VerifyErr
  | mismatch (failures total : Nat) : VerifyErr
deriving DecidableEq, Repr

/-- The type assertion `input[k].(string)` with zero-value default. -/
def getStrField (input : GoMap) (k : Bytes) : Bytes :=
  match mapGet input k with
  | some (.vstr s) => s
  | _ => []

/-- The relationships loop shared by `inputToMemoryObject` and
`mapToMemoryObject`: each element that is a JSON object contributes a
`Relationship` (with zero-value defaults for missing/non-string `key` or
`type`); every other element is skipped. -/
def collectRels : List GoValue → List Relationship
  | [] => []
  | .vmap rm :: rest =>
    ⟨getStrField rm (strBytes "key"), getStrField rm (strBytes "type")⟩ :: collectRels rest
  | _ :: rest => collectRels rest

/-- The `input["relationships"].([]interface{})` assertion plus loop; a
missing or non-array entry leaves the zero value (modelled as `[]` — the
code's final nil-to-empty-slice normalization is not observable here). -/
def relsField (input : GoMap) : List Relationship :=
  match mapGet input (strBytes "relationships") with
  | some (.varr xs) => collectRels xs
  | _ => []

/-- The `value` field: `obj.Value = input["value"]`.  In Go both an absent
key and a decoded JSON `null` yield the `nil` interface. -/
def valueField (input : GoMap) : GoValue :=
  match mapGet input (strBytes "value") with
  | some v => v
  | none => .vnull

/-- The integer-field switch (`json.Number` → `Int64()`, error ignored;
the `float64` case is unreachable under `UseNumber`; any other type
leaves the zero value). -/
def getIntField (input : GoMap) (k : Bytes) : Int :=
  match mapGet input k with
  | some (.vnum s) =>
    if int64Ok s then
      (match s with
       | b :: rest => if b = 0x2D then -(digitsVal rest : Int)
         else if b = 0x2B then (digitsVal rest : Int) else (digitsVal s : Int)
       | [] => 0)
    else 0
  | _ => 0

/-- `verify.inputToMemoryObject`: build a `MemoryObject` from a decoded
JSON map.  The Go signature returns `(object.MemoryObject, error)` but
every path ends in `return obj, nil`; the second component is the
returned error. -/
def inputToMemoryObject (input : GoMap) : MemoryObject × Option CanonErr :=
  ({ MemoryObject.zero with
      category := getStrField input (strBytes "category"),
      created_at := getStrField input (strBytes "created_at"),
      key := getStrField input (strBytes "key"),
      source := getStrField input (strBytes "source"),
      value := valueField input,
      relationships := relsField input,
      updated_at := getStrField input (strBytes "updated_at"),
      version := getIntField input (strBytes "version"),
      access_count := getIntField input (strBytes "access_count"),
      last_accessed := getStrField input (strBytes "last_accessed"),
      confidence_raw :=
        match mapGet input (strBytes "confidence") with
        | some (.vnum s) => some (.vnum s)
        | _ => none },
   none)

/-- `mapToMemoryObject` (cmd/helios/main.go): the CLI conversion, which
parses only the 6 hashed fields. -/
def mapToMemoryObject (input : GoMap) : MemoryObject :=
  { MemoryObject.zero with
      category := getStrField input (strBytes "category"),
      created_at := getStrField input (strBytes "created_at"),
      key := getStrField input (strBytes "key"),
      source := getStrField input (strBytes "source"),
      value := valueField input,
      relationships := relsField input }

/-- The verifier loop: one result per vector in order; a hash failure
aborts with `nil` results and a wrapped error; otherwise the mismatch
count is accumulated and reported at the end. -/
def verifyLoop : List TestVector → List VerifyResult → Nat →
    Option (List VerifyResult) × Option VerifyErr
  | [], acc, failures =>
    (some acc.reverse,
     if failures > 0 then some (.mismatch failures acc.length) else none)
  | vec :: rest, acc, failures =>
    match (inputToMemoryObject vec.input).2 with
    | some e => (none, some (.vectorFailed vec.name e))
    | none =>
      match ContentHash (inputToMemoryObject vec.input).1 with
      | .err e => (none, some (.vectorFailed vec.name e))
      | .ok got =>
        let pass : Bool := decide (got = vec.expected_content_hash)
        verifyLoop rest (⟨vec.name, vec.expected_content_hash, got, pass⟩ :: acc)
          (if pass then failures else failures + 1)

/-- `verify.VerifyVectors` after the vectors file has been read and
decoded: the per-vector loop over the decoded vector list. -/
def VerifyVectors (vecs : List TestVector) :
    Option (List VerifyResult) × Option VerifyErr :=
  verifyLoop vecs [] 0

/-! ### encoding/json decode of a vector object into `TestVector`

`encoding/json` matches an object member to a struct field by its JSON
tag, "preferring an exact match but also accepting a case-insensitive
match"; unknown members are ignored, a JSON `null` leaves the field
untouched, and a type mismatch is a decode error.  The tags of
`TestVector` are distinct even up to case folding, so the exact-match
preference cannot change which field a member lands in.  `EqualFold` is
modelled by ASCII case folding (all tags are ASCII). -/

def asciiLower (b : Nat) : Nat := if 65 ≤ b && b ≤ 90 then b + 32 else b

/-- ASCII `strings.EqualFold`. -/
def foldEq (a b : Bytes) : Bool := a.map asciiLower = b.map asciiLower

/-- Apply one object member to the struct being decoded: a fold-matching
member assigns its field (strings for the three string fields, an object
for `input`; a JSON `null` leaves the field untouched; any other value is
a type-mismatch decode error, signalled by `none`); an unknown member is
ignored. -/
def applyVectorMember (k : Bytes) (v : GoValue) (tv : TestVector) : Option TestVector :=
  if foldEq k (strBytes "name") then
    match v with
    | .vstr s => some { tv with name := s }
    | .vnull => some tv
    | _ => none
  else if foldEq k (strBytes "description") then
    match v with
    | .vstr s => some { tv with description := s }
    | .vnull => some tv
    | _ => none
  else if foldEq k (strBytes "input") then
    match v with
    | .vmap m => some { tv with input := m }
    | .vnull => some tv
    | _ => none
  else if foldEq k (strBytes "expected_content_hash") then
    match v with
    | .vstr s => some { tv with expected_content_hash := s }
    | .vnull => some tv
    | _ => none
  else some tv

/-- Decode the members of a vector JSON object into a `TestVector`,
starting from the zero struct; members are applied in order (a later
duplicate overwrites an earlier one, as in `encoding/json`). -/
def decodeVectorFields : GoMap → TestVector → Res TestVector
  | [], tv => .ok tv
  | (k, v) :: rest, tv =>
    match applyVectorMember k v tv with
    | none => .err .decodeTypeErr
    | some tv2 => decodeVectorFields rest tv2

/-- Decode one element of the `vectors` array. -/
def decodeTestVector (obj : GoMap) : Res TestVector :=
  decodeVectorFields obj ⟨[], [], [], []⟩

/-! ## Derived notions used by the claim statements -/

mutual

/-- A decoded numeric literal containing `.`, `e` or `E` occurs somewhere
inside the value. -/
def containsFloatLit : GoValue → Bool
  | .vnum s => hasFloatChar s
  | .vmap m => containsFloatLitPairs m
  | .varr xs => containsFloatLitList xs
  | _ => false

def containsFloatLitPairs : List (Bytes × GoValue) → Bool
  | [] => false
  | (_, v) :: rest => containsFloatLit v || containsFloatLitPairs rest

def containsFloatLitList : List GoValue → Bool
  | [] => false
  | v :: rest => containsFloatLit v || containsFloatLitList rest

end

/-- One serialized key-value pair: the escaped key, `:`, then the
serialized value (the per-pair emission of `canonicalizeMap`). -/
def renderEntry (kv : Bytes × GoValue) : Res Bytes :=
  match canonicalizeValue kv.2 with
  | .err e => .err e
  | .ok vb => .ok (canonicalizeString kv.1 ++ 0x3A :: vb)

/-- Sequence a fallible function over a list. -/
def resMapM (f : α → Res β) : List α → Res (List β)
  | [] => .ok []
  | a :: rest =>
    match f a with
    | .err e => .err e
    | .ok b =>
      match resMapM f rest with
      | .err e => .err e
      | .ok tail => .ok (b :: tail)

/-- Entry order by key for map serialization (ascending `sort.Strings`). -/
def entryLe (a b : Bytes × GoValue) : Prop := strLeR a.1 b.1

instance : DecidableRel entryLe := fun a b => by
  unfold entryLe; infer_instance

/-- The relationship comparator at the record level: `key`, then `type`. -/
def relLess (a b : Relationship) : Bool :=
  if a.key ≠ b.key then strLt a.key b.key else strLt a.type b.type

/-- The induced non-strict order on relationship records. -/
def relRecLe (a b : Relationship) : Prop := relLess b a = false

instance : DecidableRel relRecLe := fun a b => by
  unfold relRecLe; infer_instance

/-- The per-vector result the verifier records when the vector's hash
computation succeeds (the error branch is unreachable under that
hypothesis and carries a placeholder). -/
def resultOfVector (vec : TestVector) : VerifyResult :=
  match ContentHash (inputToMemoryObject vec.input).1 with
  | .ok got => ⟨vec.name, vec.expected_content_hash, got,
      decide (got = vec.expected_content_hash)⟩
  | .err _ => ⟨vec.name, vec.expected_content_hash, [], false⟩

/-- A string field of a constructed `MemoryObject` is the asserted string
when the member is present as a JSON string, and `""` otherwise. -/
def StringFieldSpec (input : GoMap) (k out : Bytes) : Prop :=
  (∃ s, mapGet input k = some (.vstr s) ∧ out = s) ∨
  ((∀ s, mapGet input k ≠ some (.vstr s)) ∧ out = [])

/-- The per-element conversion of a relationships entry: JSON objects
become `Relationship` records, all other elements are dropped. -/
def relFromVal : GoValue → Option Relationship
  | .vmap rm => some ⟨getStrField rm (strBytes "key"), getStrField rm (strBytes "type")⟩
  | _ => none

/-! ## Concrete inputs used by the claims -/

/-- The `basic` test vector's memory object
(`TestVectorHashMatchesFrozenValue`). -/
def basicVectorObject : MemoryObject :=
  { MemoryObject.zero with
      category := strBytes "project",
      created_at := strBytes "2025-01-15T10:30:00.000Z",
      key := strBytes "test/basic_memory",
      relationships := [⟨strBytes "project/helios", strBytes "related_to"⟩],
      source := strBytes "user",
      value := .vstr (strBytes "This is a test memory for hash verification.") }

/-- The same object with `Value = nil` (the `null_value` shape,
`TestNilValueIncluded`). -/
def nullValueObject : MemoryObject :=
  { basicVectorObject with value := .vnull }

/-- The `basic` vector's `input` member as a decoded JSON map. -/
def basicInputMap : GoMap :=
  [(strBytes "category", .vstr (strBytes "project")),
   (strBytes "created_at", .vstr (strBytes "2025-01-15T10:30:00.000Z")),
   (strBytes "key", .vstr (strBytes "test/basic_memory")),
   (strBytes "relationships", .varr [.vmap
     [(strBytes "key", .vstr (strBytes "project/helios")),
      (strBytes "type", .vstr (strBytes "related_to"))]]),
   (strBytes "source", .vstr (strBytes "user")),
   (strBytes "value", .vstr (strBytes "This is a test memory for hash verification."))]

/-- A decoded memory-object map whose `value` is the JSON literal `3.14`
(as `json.Number`, the `UseNumber` decoding of a float literal). -/
def floatValueInput : GoMap :=
  [(strBytes "category", .vstr (strBytes "test")),
   (strBytes "created_at", .vstr (strBytes "2025-01-15T10:30:00.000Z")),
   (strBytes "key", .vstr (strBytes "test/float")),
   (strBytes "relationships", .varr []),
   (strBytes "source", .vstr (strBytes "user")),
   (strBytes "value", .vnum (strBytes "3.14"))]

/-! ## Claim theorems -/

/-- C1: the claim states that `ContentHash` succeeds on a `MemoryObject`
whose `value` is null, serializing `"value":null`.  The code does the
opposite: `ContentHash` rejects a nil `Value` at step 0 with
`CANON_ERR_NULL_PROHIBITED`, and the serializer likewise rejects null
values (shown here on the `TestNullInclusion` input, whose test expects
`"value":null` in the output).  This theorem evaluates the code at the
failing inputs. -/
theorem c1_null_value_rejected_by_code :
    ContentHash nullValueObject = .err .nullProhibited ∧
    CanonicalizeObject
        [(strBytes "key", .vstr (strBytes "test")), (strBytes "value", .vnull)] =
      .err .nullProhibited :=
  ⟨by decide, by decide⟩

set_option maxRecDepth 400000 in
/-- C3: on the `basic` vector's object the code returns
`c3262407…` — the SHA-256 of the canonical bytes that include the
`_helios_schema_version` key the hasher injects — and not the frozen
digest `cae6f0ca…` demanded by the claim, the frozen-vector test, the
README and the repository serialization spec.  The frozen digest is
exactly the hash of the 6-key canonicalization (third conjunct), i.e. of
the same bytes without the schema-version member. -/
theorem c3_basic_vector_code_hash :
    ContentHash basicVectorObject =
      .ok (strBytes "c3262407645dcdbd1cede212fa0448a3adb2f915f762540c32e0050bbf65e781") ∧
    strBytes "c3262407645dcdbd1cede212fa0448a3adb2f915f762540c32e0050bbf65e781" ≠
      strBytes "cae6f0ca521caeb1f74470aeca5a75ff1fe098809a034e8a15e0eb4762b4f485" ∧
    hexEncode (sha256 (strBytes "\x7b\"category\":\"project\",\"created_at\":\"2025-01-15T10:30:00.000Z\",\"key\":\"test/basic_memory\",\"relationships\":[\x7b\"key\":\"project/helios\",\"type\":\"related_to\"\x7d],\"source\":\"user\",\"value\":\"This is a test memory for hash verification.\"\x7d")) =
      strBytes "cae6f0ca521caeb1f74470aeca5a75ff1fe098809a034e8a15e0eb4762b4f485" :=
  ⟨by decide, by decide, by decide⟩

/-- C4: `ContentHash` depends only on the six hashed fields: two objects
agreeing on `category`, `created_at`, `key`, `relationships`, `source`
and `value` produce the same result — the same hash on success and the
same error on failure — whatever their `updated_at`, `version`,
`access_count`, `last_accessed` and `confidence`. -/
theorem c4_excluded_fields_do_not_affect_hash (m1 m2 : MemoryObject)
    (hcat : m1.category = m2.category)
    (hcr : m1.created_at = m2.created_at)
    (hkey : m1.key = m2.key)
    (hrel : m1.relationships = m2.relationships)
    (hsrc : m1.source = m2.source)
    (hval : m1.value = m2.value) :
    ContentHash m1 = ContentHash m2 := by
  obtain ⟨c1, r1, k1, l1, s1, v1, u1, e1, a1, t1, f1⟩ := m1
  obtain ⟨c2, r2, k2, l2, s2, v2, u2, e2, a2, t2, f2⟩ := m2
  simp only at hcat hcr hkey hrel hsrc hval
  subst hcat hcr hkey hrel hsrc hval
  rfl

/-- Witness for C4: two concrete objects that differ in every excluded
field hash identically. -/
theorem c4_excluded_fields_witness :
    ContentHash { basicVectorObject with
        updated_at := strBytes "2099-12-31T23:59:59.999Z",
        version := 999,
        access_count := 1000000,
        last_accessed := strBytes "2099-12-31T23:59:59.999Z",
        confidence_raw := some (.vnum (strBytes "1")) } =
      ContentHash basicVectorObject :=
  c4_excluded_fields_do_not_affect_hash _ _ rfl rfl rfl rfl rfl rfl

/-- C2 (counterexample): the CLI hash path does not fail on a decoded
numeric literal containing `.` — `runHash`'s pipeline
(`mapToMemoryObject` then `ContentHash`, with no call to
`ValidateIngestValue`) produces a hash for a `value` of `3.14`. -/
theorem c2_cli_hashes_float_value :
    (ContentHash (mapToMemoryObject floatValueInput)).isOk = true := by decide

mutual

theorem validateFloatVal : ∀ (v : GoValue) (path : Bytes),
    containsFloatLit v = true → (validateIngest v path).isOk = false
  | .vnull, _, h => by simp [containsFloatLit] at h
  | .vbool _, _, h => by simp [containsFloatLit] at h
  | .vstr _, _, h => by simp [containsFloatLit] at h
  | .vint _, path, _ => by simp [validateIngest, Res.isOk]
  | .vnum s, path, h => by
    simp only [containsFloatLit] at h
    simp [validateIngest, h, Res.isOk]
  | .vmap m, path, h => by
    simp only [containsFloatLit] at h
    simpa [validateIngest] using validateFloatPairs m path h
  | .varr xs, path, h => by
    simp only [containsFloatLit] at h
    simpa [validateIngest] using validateFloatList xs path 0 h

theorem validateFloatPairs : ∀ (m : List (Bytes × GoValue)) (path : Bytes),
    containsFloatLitPairs m = true → (validateIngestPairs m path).isOk = false
  | [], _, h => by simp [containsFloatLitPairs] at h
  | (k, v) :: rest, path, h => by
    simp only [containsFloatLitPairs, Bool.or_eq_true] at h
    simp only [validateIngestPairs]
    cases hvi : validateIngest v (path ++ 0x2E :: k) with
    | err e => simp [Res.isOk]
    | ok u =>
      cases h with
      | inl hv =>
        have := validateFloatVal v (path ++ 0x2E :: k) hv
        rw [hvi] at this
        simp [Res.isOk] at this
      | inr hr => exact validateFloatPairs rest path hr

theorem validateFloatList : ∀ (xs : List GoValue) (path : Bytes) (i : Nat),
    containsFloatLitList xs = true → (validateIngestList xs path i).isOk = false
  | [], _, _, h => by simp [containsFloatLitList] at h
  | v :: rest, path, i, h => by
    simp only [containsFloatLitList, Bool.or_eq_true] at h
    simp only [validateIngestList]
    cases hvi : validateIngest v (indexPath path i) with
    | err e => simp [Res.isOk]
    | ok u =>
      cases h with
      | inl hv =>
        have := validateFloatVal v (indexPath path i) hv
        rw [hvi] at this
        simp [Res.isOk] at this
      | inr hr => exact validateFloatList rest path (i + 1) hr

end

/-- C2 (amended): RULE-002 holds of the validator itself — a
`json.Number` whose text contains `.`, `e` or `E` fails
`validateIngest` with the float-prohibited error at its path, and any
value containing such a literal anywhere fails `ValidateIngestValue` —
but neither the CLI hash path (`runHash`, modelled by
`mapToMemoryObject` + `ContentHash`) nor the verifier invokes
`ValidateIngestValue`, so such values hash successfully there
(see the counterexample theorem). -/
theorem c2_validate_ingest_rejects_floats :
    (∀ (s path : Bytes), hasFloatChar s = true →
        validateIngest (.vnum s) path = .err (.ingestFloat s path)) ∧
    (∀ v : GoValue, containsFloatLit v = true →
        (ValidateIngestValue v).isOk = false) := by
  constructor
  · intro s path h
    simp [validateIngest, h]
  · intro v h
    exact validateFloatVal v [] h

/-- Witness for C2's amended statement at concrete inputs. -/
theorem c2_validate_ingest_witness :
    validateIngest (.vnum (strBytes "3.14")) [] =
      .err (.ingestFloat (strBytes "3.14") []) ∧
    (ValidateIngestValue (.vmap [(strBytes "ratio", .vnum (strBytes "2.5"))])).isOk = false :=
  ⟨c2_validate_ingest_rejects_floats.1 _ _ (by decide),
   c2_validate_ingest_rejects_floats.2 _ (by decide)⟩

/-- `lastIndexOf` finds an occurrence. -/
theorem lastIndexOf_mem {b : Nat} : ∀ {s : Bytes} {i : Nat},
    lastIndexOf b s = some i → b ∈ s := by
  intro s
  induction s with
  | nil => intro i h; simp [lastIndexOf] at h
  | cons x rest ih =>
    intro i h
    simp only [lastIndexOf] at h
    cases hr : lastIndexOf b rest with
    | some j => exact List.mem_cons_of_mem x (ih hr)
    | none =>
      rw [hr] at h
      by_cases hx : x = b
      · simp [hx]
      · simp [hx] at h

/-- C6: `NormalizeTimestamp` fails with the non-UTC error exactly when the
input does not end in `Z`, before any other check; when the input does
end in `Z` but contains no `.`, or the part between the last `.` and the
final `Z` is not exactly 3 characters long, it fails with the
invalid-precision error. -/
theorem c6_timestamp_validation_order (s : Bytes) :
    (s.getLast? ≠ some 0x5A → NormalizeTimestamp s = .err (.tsNonUTC s)) ∧
    (s.getLast? = some 0x5A →
      ((0x2E ∉ s) ∨
        (∀ i, lastIndexOf 0x2E s = some i →
          (listSlice s (i + 1) (s.length - 1)).length ≠ 3)) →
      ∃ e, NormalizeTimestamp s = .err e ∧ e.isInvalidPrecision = true) := by
  constructor
  · intro h
    have hz : endsWithZ s = false := by
      simp [endsWithZ, h]
    simp [NormalizeTimestamp, hz]
  · intro hz hbad
    have hz' : endsWithZ s = true := by simp [endsWithZ, hz]
    cases hli : lastIndexOf 0x2E s with
    | none =>
      refine ⟨.tsNoFrac s, ?_, rfl⟩
      simp [NormalizeTimestamp, hz', hli]
    | some i =>
      have hne : (listSlice s (i + 1) (s.length - 1)).length ≠ 3 := by
        cases hbad with
        | inl hnm => exact absurd (lastIndexOf_mem hli) hnm
        | inr hall => exact hall i hli
      refine ⟨.tsBadFrac (listSlice s (i + 1) (s.length - 1)).length s, ?_, rfl⟩
      simp [NormalizeTimestamp, hz', hli, hne]

/-- Witness for C6: a `+00:00` suffix is rejected as non-UTC, and a
`Z`-suffixed timestamp without a fractional part is rejected with the
invalid-precision error. -/
theorem c6_timestamp_witness :
    NormalizeTimestamp (strBytes "2025-01-15T10:30:00.123+00:00") =
      .err (.tsNonUTC (strBytes "2025-01-15T10:30:00.123+00:00")) ∧
    ∃ e, NormalizeTimestamp (strBytes "2025-01-15T10:30:00Z") = .err e ∧
      e.isInvalidPrecision = true :=
  ⟨(c6_timestamp_validation_order _).1 (by decide),
   (c6_timestamp_validation_order _).2 (by decide) (Or.inl (by decide))⟩

/-! ## C5: relationship order irrelevance -/

theorem strLt_irrefl (s : Bytes) : strLt s s = false := by
  by_cases h : strLt s s = true
  · exact absurd (strLt_asymm s s h h) (fun f => f)
  · simpa using h

/-- The relationship map built from a record. -/
def relToMap (r : Relationship) : GoMap := RelationshipToMap r.key r.type

theorem relGetStr_key (k t : Bytes) :
    relGetStr (RelationshipToMap k t) (strBytes "key") = k := by
  simp [relGetStr, RelationshipToMap, mapGet]

theorem relGetStr_type (k t : Bytes) :
    relGetStr (RelationshipToMap k t) (strBytes "type") = t := by
  have hne : strBytes "key" ≠ strBytes "type" := by decide
  simp [relGetStr, RelationshipToMap, mapGet, hne]

theorem relMapLess_toMap (a b : Relationship) :
    relMapLess (relToMap a) (relToMap b) = relLess a b := by
  simp [relMapLess, relLess, relToMap, relGetStr_key, relGetStr_type]

theorem relMapLe_toMap (a b : Relationship) :
    relMapLe (relToMap a) (relToMap b) ↔ relRecLe a b := by
  unfold relMapLe relRecLe
  rw [relMapLess_toMap]

/-- Characterization of `relRecLe` as a lexicographic order on
`(key, type)`. -/
theorem relRecLe_iff (a b : Relationship) :
    relRecLe a b ↔
      strLt a.key b.key = true ∨ (a.key = b.key ∧ strLt b.type a.type = false) := by
  unfold relRecLe relLess
  by_cases hk : b.key = a.key
  · rw [hk, if_neg (fun hc => hc rfl)]
    constructor
    · intro h
      exact Or.inr ⟨rfl, h⟩
    · intro h
      cases h with
      | inl hlt => rw [strLt_irrefl] at hlt; cases hlt
      | inr hh => exact hh.2
  · have hk' : a.key ≠ b.key := fun he => hk he.symm
    simp only [ne_eq, hk, not_false_eq_true, if_true]
    constructor
    · intro h
      left
      by_cases hab : strLt a.key b.key = true
      · exact hab
      · exact absurd (strLt_total_eq b.key a.key h (by simpa using hab)) hk
    · intro h
      cases h with
      | inl hlt =>
        by_cases hba : strLt b.key a.key = true
        · exact absurd (strLt_asymm _ _ hlt hba) (fun f => f)
        · simpa using hba
      | inr hh => exact absurd hh.1 hk'

instance : IsTotal Relationship relRecLe := by
  constructor
  intro a b
  rw [relRecLe_iff, relRecLe_iff]
  by_cases hab : strLt a.key b.key = true
  · exact Or.inl (Or.inl hab)
  · by_cases hba : strLt b.key a.key = true
    · exact Or.inr (Or.inl hba)
    · have hk : a.key = b.key :=
        strLt_total_eq a.key b.key (by simpa using hab) (by simpa using hba)
      by_cases ht : strLt b.type a.type = true
      · refine Or.inr (Or.inr ⟨hk.symm, ?_⟩)
        by_cases hta : strLt a.type b.type = true
        · exact absurd (strLt_asymm _ _ hta ht) (fun f => f)
        · simpa using hta
      · exact Or.inl (Or.inr ⟨hk, by simpa using ht⟩)

instance : IsTrans Relationship relRecLe := by
  constructor
  intro a b c hab hbc
  rw [relRecLe_iff] at hab hbc ⊢
  cases hab with
  | inl h1 =>
    cases hbc with
    | inl h2 => exact Or.inl (strLt_trans _ _ _ h1 h2)
    | inr h2 => exact Or.inl (h2.1 ▸ h1)
  | inr h1 =>
    cases hbc with
    | inl h2 => exact Or.inl (h1.1 ▸ h2)
    | inr h2 =>
      refine Or.inr ⟨h1.1.trans h2.1, ?_⟩
      by_cases hca : strLt c.type a.type = true
      · exfalso
        by_cases hab' : strLt a.type b.type = true
        · have := strLt_trans _ _ _ hca hab'
          rw [h2.2] at this; cases this
        · have : a.type = b.type := strLt_total_eq _ _ (by simpa using hab') h1.2
          rw [← this] at h2
          rw [h2.2] at hca; cases hca
      · simpa using hca

instance : IsAntisymm Relationship relRecLe := by
  constructor
  intro a b hab hba
  rw [relRecLe_iff] at hab hba
  obtain ⟨ak, at'⟩ := a
  obtain ⟨bk, bt⟩ := b
  simp only at hab hba ⊢
  cases hab with
  | inl h1 =>
    cases hba with
    | inl h2 => exact absurd (strLt_asymm _ _ h1 h2) (fun f => f)
    | inr h2 => rw [h2.1] at h1; rw [strLt_irrefl] at h1; cases h1
  | inr h1 =>
    cases hba with
    | inl h2 => rw [h1.1] at h2; rw [strLt_irrefl] at h2; cases h2
    | inr h2 =>
      have ht : bt = at' := strLt_total_eq bt at' h1.2 h2.2
      rw [h1.1, ht]

theorem orderedInsert_map_comm {α β : Type} (f : α → β) (r : β → β → Prop)
    (q : α → α → Prop) [DecidableRel r] [DecidableRel q]
    (hiff : ∀ a b, r (f a) (f b) ↔ q a b) (a : α) :
    ∀ l : List α,
      List.orderedInsert r (f a) (l.map f) = (List.orderedInsert q a l).map f := by
  intro l
  induction l with
  | nil => simp
  | cons b bs ih =>
    simp only [List.map_cons, List.orderedInsert]
    by_cases h : q a b
    · rw [if_pos ((hiff a b).mpr h), if_pos h]
      simp
    · rw [if_neg (fun hc => h ((hiff a b).mp hc)), if_neg h, List.map_cons, ih]

theorem insertionSort_map_comm {α β : Type} (f : α → β) (r : β → β → Prop)
    (q : α → α → Prop) [DecidableRel r] [DecidableRel q]
    (hiff : ∀ a b, r (f a) (f b) ↔ q a b) :
    ∀ l : List α,
      List.insertionSort r (l.map f) = (List.insertionSort q l).map f := by
  intro l
  induction l with
  | nil => simp
  | cons a as ih =>
    simp only [List.map_cons, List.insertionSort, ih]
    exact orderedInsert_map_comm f r q hiff a _

/-- Sorting the relationship maps of two permutations of the same
relationship list yields the same sequence. -/
theorem sortRelationships_perm_invariant {l1 l2 : List Relationship}
    (hp : l1.Perm l2) :
    SortRelationships (relMapsOf l1) = SortRelationships (relMapsOf l2) := by
  unfold SortRelationships relMapsOf
  rw [show (fun r : Relationship => RelationshipToMap r.key r.type) = relToMap from rfl,
      insertionSort_map_comm relToMap relMapLe relRecLe relMapLe_toMap l1,
      insertionSort_map_comm relToMap relMapLe relRecLe relMapLe_toMap l2]
  congr 1
  exact List.eq_of_perm_of_sorted
    ((List.perm_insertionSort relRecLe l1).trans
      (hp.trans (List.perm_insertionSort relRecLe l2).symm))
    (List.sorted_insertionSort relRecLe l1)
    (List.sorted_insertionSort relRecLe l2)

/-- C5: when `ContentHash` succeeds, permuting the `relationships`
sequence leaves the hash unchanged: the sort step sends every permutation
of the relationship multiset to the same sorted sequence, so the
canonical bytes coincide. -/
theorem c5_relationship_order_irrelevant (m : MemoryObject)
    (rels2 : List Relationship) (hsh : Bytes)
    (hperm : rels2.Perm m.relationships)
    (hok : ContentHash m = .ok hsh) :
    ContentHash { m with relationships := rels2 } = .ok hsh := by
  obtain ⟨cat, cr, k, rels, src, v, u, ver, ac, la, cf⟩ := m
  simp only at hperm
  have hs := sortRelationships_perm_invariant hperm
  unfold ContentHash at hok ⊢
  by_cases hnv : isNullValue v = true
  · simp [hnv] at hok
  · simp only [hnv, if_false, Bool.false_eq_true] at hok ⊢
    unfold contentHashFrom NewHashInput at hok ⊢
    simp only at hok ⊢
    cases hts : NormalizeTimestamp cr with
    | err e =>
      rw [hts] at hok
      exact Res.noConfusion hok
    | ok ts =>
      rw [hts] at hok
      have hok' : contentHashFields (NormalizeString cat) (NormalizeString k)
          (NormalizeString src) ts (normalizeValueField v)
          ((SortRelationships (relMapsOf rels)).map normalizeRelMap) = .ok hsh := hok
      show contentHashFields (NormalizeString cat) (NormalizeString k)
          (NormalizeString src) ts (normalizeValueField v)
          ((SortRelationships (relMapsOf rels2)).map normalizeRelMap) = .ok hsh
      rw [hs]
      exact hok'

/-- Witness object for C5, with its relationships out of canonical
order. -/
def permutationObject : MemoryObject :=
  { MemoryObject.zero with
      category := strBytes "project",
      created_at := strBytes "2025-01-15T10:30:00.000Z",
      key := strBytes "k",
      relationships := [⟨strBytes "b", strBytes "t"⟩, ⟨strBytes "a", strBytes "t"⟩],
      source := strBytes "user",
      value := .vstr (strBytes "v") }

set_option maxRecDepth 400000 in
/-- Witness for C5: swapping the two relationships of a concrete object
reproduces its hash. -/
theorem c5_relationship_order_witness :
    ContentHash { permutationObject with
        relationships := [⟨strBytes "a", strBytes "t"⟩, ⟨strBytes "b", strBytes "t"⟩] } =
      .ok (strBytes "dea83cf1a106fda08b5f4918e502aa16f4578f3f726a798824a1bb484007cd32") :=
  c5_relationship_order_irrelevant permutationObject _ _ (by decide) (by decide)

/-! ## C7: canonical map serialization shape -/

instance : IsTotal (Bytes × GoValue) entryLe := ⟨fun a b => strLeR_total a.1 b.1⟩

instance : IsTrans (Bytes × GoValue) entryLe :=
  ⟨fun a b c hab hbc => strLeR_trans a.1 b.1 c.1 hab hbc⟩

/-- Success of `canonMapPairs` relates the entries to the rendered pairs
pointwise: same keys, and each value serialized successfully. -/
theorem canonMapPairs_ok : ∀ {m : GoMap} {pairs : List (Bytes × Bytes)},
    canonMapPairs m = .ok pairs →
    List.Forall₂ (fun kv p => kv.1 = p.1 ∧ canonicalizeValue kv.2 = .ok p.2) m pairs := by
  intro m
  induction m with
  | nil =>
    intro pairs h
    simp only [canonMapPairs, Res.ok.injEq] at h
    subst h
    exact .nil
  | cons kv rest ih =>
    intro pairs h
    obtain ⟨k, v⟩ := kv
    simp only [canonMapPairs] at h
    cases hv : canonicalizeValue v with
    | err e => simp only [hv] at h; exact Res.noConfusion h
    | ok vb =>
      simp only [hv] at h
      cases hr : canonMapPairs rest with
      | err e => simp only [hr] at h; exact Res.noConfusion h
      | ok tail =>
        simp only [hr, Res.ok.injEq] at h
        subst h
        exact .cons ⟨rfl, hv⟩ (ih hr)

theorem orderedInsert_forall2 {α β : Type} {R : α → β → Prop}
    (r : α → α → Prop) (s : β → β → Prop) [DecidableRel r] [DecidableRel s]
    (hcomp : ∀ a a' b b', R a b → R a' b' → (r a a' ↔ s b b'))
    {a : α} {b : β} (hab : R a b) :
    ∀ {l : List α} {q : List β}, List.Forall₂ R l q →
      List.Forall₂ R (List.orderedInsert r a l) (List.orderedInsert s b q) := by
  intro l q hf
  induction hf with
  | nil => exact .cons hab .nil
  | @cons x y l' q' hxy hrest ih =>
    simp only [List.orderedInsert]
    by_cases h : r a x
    · rw [if_pos h, if_pos ((hcomp a x b y hab hxy).mp h)]
      exact .cons hab (.cons hxy hrest)
    · rw [if_neg h, if_neg (fun hc => h ((hcomp a x b y hab hxy).mpr hc))]
      exact .cons hxy ih

theorem insertionSort_forall2 {α β : Type} {R : α → β → Prop}
    (r : α → α → Prop) (s : β → β → Prop) [DecidableRel r] [DecidableRel s]
    (hcomp : ∀ a a' b b', R a b → R a' b' → (r a a' ↔ s b b')) :
    ∀ {l : List α} {q : List β}, List.Forall₂ R l q →
      List.Forall₂ R (List.insertionSort r l) (List.insertionSort s q) := by
  intro l q hf
  induction hf with
  | nil => exact .nil
  | @cons x y l' q' hxy hrest ih =>
    simp only [List.insertionSort]
    exact orderedInsert_forall2 r s hcomp hxy ih

/-- Rendering the sorted entries of a successful serialization yields the
rendered pairs. -/
theorem resMapM_renderEntry : ∀ {l : GoMap} {sp : List (Bytes × Bytes)},
    List.Forall₂ (fun kv p => kv.1 = p.1 ∧ canonicalizeValue kv.2 = .ok p.2) l sp →
    resMapM renderEntry l = .ok (sp.map (fun p => canonicalizeString p.1 ++ 0x3A :: p.2)) := by
  intro l sp hf
  induction hf with
  | nil => rfl
  | @cons kv p l' sp' hxy hrest ih =>
    simp only [resMapM, renderEntry, hxy.2, List.map_cons, ih, hxy.1]

/-- C7: a successfully serialized map (with the distinct keys a Go map
guarantees) consists of `{`, the key-value pairs — each rendered as the
escaped key, `:`, then the serialized value — in strictly ascending order
of the keys' byte sequences, separated by `,`, then `}`, with no
whitespace; nested maps pass through `canonicalizeValue`, which routes
every map at every level through this same serializer. -/
theorem c7_map_serialization (m : GoMap) (bs : Bytes)
    (hnd : (m.map Prod.fst).Nodup)
    (hok : canonicalizeMap m = .ok bs) :
    ∃ (l : GoMap) (parts : List Bytes),
      l.Perm m ∧
      l.Pairwise (fun p q => strLt p.1 q.1 = true) ∧
      resMapM renderEntry l = .ok parts ∧
      bs = 0x7B :: (joinComma parts ++ [0x7D]) := by
  unfold canonicalizeMap at hok
  cases hcp : canonMapPairs m with
  | err e => simp only [hcp] at hok; exact Res.noConfusion hok
  | ok pairs =>
    simp only [hcp, Res.ok.injEq] at hok
    have hf2 := canonMapPairs_ok hcp
    have hcomp : ∀ (a a' : Bytes × GoValue) (b b' : Bytes × Bytes),
        (fun kv p => kv.1 = p.1 ∧ canonicalizeValue kv.2 = .ok p.2) a b →
        (fun kv p => kv.1 = p.1 ∧ canonicalizeValue kv.2 = .ok p.2) a' b' →
        (entryLe a a' ↔ pairKeyLe b b') := by
      intro a a' b b' hb hb'
      unfold entryLe pairKeyLe
      rw [hb.1, hb'.1]
    refine ⟨List.insertionSort entryLe m,
      (List.insertionSort pairKeyLe pairs).map
        (fun p => canonicalizeString p.1 ++ 0x3A :: p.2),
      List.perm_insertionSort entryLe m, ?_, ?_, ?_⟩
    · have hsorted : List.Sorted entryLe (List.insertionSort entryLe m) :=
        List.sorted_insertionSort entryLe m
    -- distinct keys survive the sort, so the sorted `≤` becomes strict `<`
      have hperm : ((List.insertionSort entryLe m).map Prod.fst).Perm
          (m.map Prod.fst) := (List.perm_insertionSort entryLe m).map Prod.fst
      have hnd' : ((List.insertionSort entryLe m).map Prod.fst).Nodup :=
        hperm.symm.nodup hnd
      have hne : (List.insertionSort entryLe m).Pairwise (fun p q => p.1 ≠ q.1) :=
        List.pairwise_map.mp hnd'
      exact (hsorted.and hne).imp (fun hpq => strLt_of_le_of_ne hpq.1 hpq.2)
    · exact resMapM_renderEntry (insertionSort_forall2 entryLe pairKeyLe hcomp hf2)
    · rw [← hok]
      rfl

/-- Witness for C7 on a concrete two-key map: keys are emitted in sorted
order with the exact canonical byte shape. -/
theorem c7_map_serialization_witness :
    ((([(strBytes "b", GoValue.vbool true),
        (strBytes "a", GoValue.vstr (strBytes "x"))] : GoMap).map Prod.fst).Nodup) ∧
    (∃ (l : GoMap) (parts : List Bytes),
      l.Perm [(strBytes "b", GoValue.vbool true),
              (strBytes "a", GoValue.vstr (strBytes "x"))] ∧
      l.Pairwise (fun p q => strLt p.1 q.1 = true) ∧
      resMapM renderEntry l = .ok parts ∧
      strBytes "\x7b\"a\":\"x\",\"b\":true\x7d" =
        0x7B :: (joinComma parts ++ [0x7D])) :=
  ⟨by decide, c7_map_serialization _ _ (by decide) (by decide)⟩

/-! ## C8: verifier aggregation -/

/-- `inputToMemoryObject` always returns a nil error. -/
theorem inputToMemoryObject_no_error (input : GoMap) :
    (inputToMemoryObject input).2 = none := rfl

/-- The verifier loop, unrolled: when every remaining vector hashes
successfully it emits one result per vector in order and accumulates the
mismatch count. -/
theorem verifyLoop_ok (vecs : List TestVector) :
    ∀ (acc : List VerifyResult) (failures : Nat),
    (∀ v ∈ vecs, (ContentHash (inputToMemoryObject v.input).1).isOk = true) →
    verifyLoop vecs acc failures =
      (some (acc.reverse ++ vecs.map resultOfVector),
       if failures + (vecs.map resultOfVector).countP (fun r => !r.pass) > 0
       then some (.mismatch
         (failures + (vecs.map resultOfVector).countP (fun r => !r.pass))
         (acc.length + vecs.length))
       else none) := by
  induction vecs with
  | nil =>
    intro acc failures _
    simp [verifyLoop]
  | cons vec rest ih =>
    intro acc failures h
    have hv := h vec (List.mem_cons_self _ _)
    cases hch : ContentHash (inputToMemoryObject vec.input).1 with
    | err e => rw [hch] at hv; simp [Res.isOk] at hv
    | ok got =>
      have hres : resultOfVector vec =
          ⟨vec.name, vec.expected_content_hash, got,
            decide (got = vec.expected_content_hash)⟩ := by
        unfold resultOfVector
        rw [hch]
      simp only [verifyLoop, inputToMemoryObject_no_error, hch]
      rw [ih _ _ (fun v hv' => h v (List.mem_cons_of_mem _ hv'))]
      simp only [List.map_cons, hres, List.countP_cons, List.reverse_cons,
        List.append_assoc, List.singleton_append, List.length_cons]
      by_cases hp : decide (got = vec.expected_content_hash) = true
      · simp only [hp, Bool.not_true, if_true, if_pos rfl]
        have h1 : acc.length + 1 + rest.length = acc.length + (rest.length + 1) := by omega
        simp [h1]
      · have hp' : decide (got = vec.expected_content_hash) = false := by
          simpa using hp
        simp only [hp', Bool.not_false, if_neg (by simp : ¬ (false = true))]
        have h1 : failures + 1 +
            (List.countP (fun r => !r.pass) (rest.map resultOfVector)) =
            failures + ((List.countP (fun r => !r.pass) (rest.map resultOfVector)) + 1) := by
          omega
        have h2 : acc.length + 1 + rest.length = acc.length + (rest.length + 1) := by omega
        simp only [List.countP_map] at h1
        simp [h1, h2]

/-- C8: when the vectors file decodes and every vector's hash computation
succeeds, `VerifyVectors` produces exactly one result per vector in file
order — each carrying the vector's name, its expected hash, the computed
hash, and a pass flag that is true iff the two are byte-equal (see
`resultOfVector`) — and reports an aggregate mismatch error iff at least
one vector fails, still returning the full per-vector result list in that
case. -/
theorem c8_verifier_aggregation (vecs : List TestVector)
    (h : ∀ v ∈ vecs, (ContentHash (inputToMemoryObject v.input).1).isOk = true) :
    VerifyVectors vecs =
      (some (vecs.map resultOfVector),
       if (vecs.map resultOfVector).countP (fun r => !r.pass) > 0
       then some (.mismatch ((vecs.map resultOfVector).countP (fun r => !r.pass))
         vecs.length)
       else none) ∧
    ((VerifyVectors vecs).2.isSome ↔
      ∃ r ∈ vecs.map resultOfVector, r.pass = false) := by
  have h1 := verifyLoop_ok vecs [] 0 h
  simp only [List.reverse_nil, List.nil_append, Nat.zero_add, List.length_nil] at h1
  have hmain : VerifyVectors vecs =
      (some (vecs.map resultOfVector),
       if (vecs.map resultOfVector).countP (fun r => !r.pass) > 0
       then some (.mismatch ((vecs.map resultOfVector).countP (fun r => !r.pass))
         vecs.length)
       else none) := h1
  refine ⟨hmain, ?_⟩
  rw [hmain]
  by_cases hc : (vecs.map resultOfVector).countP (fun r => !r.pass) > 0
  · rw [if_pos hc]
    simp only [Option.isSome_some, true_iff]
    obtain ⟨r, hr, hpr⟩ := List.countP_pos_iff.mp hc
    exact ⟨r, hr, by simpa using hpr⟩
  · rw [if_neg hc]
    simp only [Option.isSome_none, Bool.false_eq_true, false_iff]
    rintro ⟨r, hr, hpr⟩
    exact hc (List.countP_pos_iff.mpr ⟨r, hr, by simp [hpr]⟩)

/-- Two concrete vectors over the same input: one with the code's actual
digest (pass) and one with an all-zero digest (fail). -/
def passingVector : TestVector :=
  ⟨strBytes "self_check", [], basicInputMap,
   strBytes "c3262407645dcdbd1cede212fa0448a3adb2f915f762540c32e0050bbf65e781"⟩

def failingVector : TestVector :=
  ⟨strBytes "mismatch", [], basicInputMap,
   strBytes "0000000000000000000000000000000000000000000000000000000000000000"⟩

set_option maxRecDepth 1000000 in
/-- Witness for C8 on a two-vector file with one pass and one mismatch:
the aggregate error is reported iff some vector fails. -/
theorem c8_verifier_aggregation_witness :
    (VerifyVectors [passingVector, failingVector]).2.isSome ↔
      ∃ r ∈ [passingVector, failingVector].map resultOfVector, r.pass = false :=
  (c8_verifier_aggregation [passingVector, failingVector] (by decide)).2

/-! ## C9: silent defaulting in object construction -/

theorem getStrField_spec (input : GoMap) (k : Bytes) :
    StringFieldSpec input k (getStrField input k) := by
  unfold StringFieldSpec
  cases hm : mapGet input k with
  | none =>
    right
    refine ⟨fun s hs => Option.noConfusion hs, ?_⟩
    simp [getStrField, hm]
  | some v =>
    cases v
    case vstr s =>
      left
      exact ⟨s, rfl, by simp [getStrField, hm]⟩
    all_goals
      right
      refine ⟨fun s hs => by simp at hs, by simp [getStrField, hm]⟩

theorem collectRels_eq_filterMap : ∀ xs : List GoValue,
    collectRels xs = xs.filterMap relFromVal := by
  intro xs
  induction xs with
  | nil => rfl
  | cons x rest ih =>
    cases x <;> simp [collectRels, relFromVal, List.filterMap_cons, ih]

/-- C9: both object constructions (`inputToMemoryObject` and
`mapToMemoryObject`) never return an error; each of `category`,
`created_at`, `key` and `source` is the member's string when present as a
JSON string and the empty string otherwise; and the relationships
sequence keeps exactly the elements that are JSON objects, silently
dropping every other element. -/
theorem c9_object_construction (input : GoMap) :
    (inputToMemoryObject input).2 = none ∧
    (inputToMemoryObject input).1.category = (mapToMemoryObject input).category ∧
    (inputToMemoryObject input).1.created_at = (mapToMemoryObject input).created_at ∧
    (inputToMemoryObject input).1.key = (mapToMemoryObject input).key ∧
    (inputToMemoryObject input).1.source = (mapToMemoryObject input).source ∧
    (inputToMemoryObject input).1.relationships = (mapToMemoryObject input).relationships ∧
    StringFieldSpec input (strBytes "category") (mapToMemoryObject input).category ∧
    StringFieldSpec input (strBytes "created_at") (mapToMemoryObject input).created_at ∧
    StringFieldSpec input (strBytes "key") (mapToMemoryObject input).key ∧
    StringFieldSpec input (strBytes "source") (mapToMemoryObject input).source ∧
    (∀ xs, mapGet input (strBytes "relationships") = some (.varr xs) →
      (mapToMemoryObject input).relationships = xs.filterMap relFromVal) ∧
    ((∀ xs, mapGet input (strBytes "relationships") ≠ some (.varr xs)) →
      (mapToMemoryObject input).relationships = []) := by
  refine ⟨rfl, rfl, rfl, rfl, rfl, rfl, getStrField_spec input _, getStrField_spec input _,
    getStrField_spec input _, getStrField_spec input _, ?_, ?_⟩
  · intro xs hxs
    show relsField input = _
    unfold relsField
    rw [hxs]
    exact collectRels_eq_filterMap xs
  · intro hno
    show relsField input = []
    unfold relsField
    cases hm : mapGet input (strBytes "relationships") with
    | none => rfl
    | some v => cases v <;> first | rfl | exact absurd hm (hno _)

/-- A decoded map with a non-string `category` and relationship elements
that are not objects. -/
def mixedInput : GoMap :=
  [(strBytes "category", .vint 7),
   (strBytes "relationships", .varr [.vstr (strBytes "x"),
      .vmap [(strBytes "key", .vstr (strBytes "a"))]])]

/-- Witness for C9: the non-string `category` defaults to `""`, the
non-object relationships element is dropped, and no error is raised. -/
theorem c9_object_construction_witness :
    (inputToMemoryObject mixedInput).2 = none ∧
    (mapToMemoryObject mixedInput).category = [] ∧
    (mapToMemoryObject mixedInput).relationships = [⟨strBytes "a", []⟩] := by
  have h := c9_object_construction mixedInput
  refine ⟨h.1, ?_, ?_⟩
  · rcases h.2.2.2.2.2.2.1 with ⟨s, hs, _⟩ | hr
    · rw [show mapGet mixedInput (strBytes "category") = some (.vint 7) from rfl] at hs
      simp at hs
    · exact hr.2
  · rw [h.2.2.2.2.2.2.2.2.2.2.1
      [.vstr (strBytes "x"), .vmap [(strBytes "key", .vstr (strBytes "a"))]] rfl]
    rfl

/-! ## C10: where the expected digest is read from -/

/-- Decoding reads `expected_content_hash` only from members whose key
fold-matches the tag: the decoded field is either the starting value or
the string payload of some matching member. -/
theorem applyVectorMember_expected {k : Bytes} {v : GoValue} {tv tv2 : TestVector}
    (h : applyVectorMember k v tv = some tv2) :
    tv2.expected_content_hash = tv.expected_content_hash ∨
    (foldEq k (strBytes "expected_content_hash") = true ∧
      v = .vstr tv2.expected_content_hash) := by
  unfold applyVectorMember at h
  by_cases h1 : foldEq k (strBytes "name") = true
  · rw [if_pos h1] at h
    cases v with
    | vstr s => injection h with h; left; rw [← h]
    | vnull => injection h with h; left; rw [← h]
    | vbool b => exact Option.noConfusion h
    | vnum s => exact Option.noConfusion h
    | vint n => exact Option.noConfusion h
    | varr xs => exact Option.noConfusion h
    | vmap m => exact Option.noConfusion h
  · rw [if_neg h1] at h
    by_cases h2 : foldEq k (strBytes "description") = true
    · rw [if_pos h2] at h
      cases v with
      | vstr s => injection h with h; left; rw [← h]
      | vnull => injection h with h; left; rw [← h]
      | vbool b => exact Option.noConfusion h
      | vnum s => exact Option.noConfusion h
      | vint n => exact Option.noConfusion h
      | varr xs => exact Option.noConfusion h
      | vmap m => exact Option.noConfusion h
    · rw [if_neg h2] at h
      by_cases h3 : foldEq k (strBytes "input") = true
      · rw [if_pos h3] at h
        cases v with
        | vmap m => injection h with h; left; rw [← h]
        | vnull => injection h with h; left; rw [← h]
        | vbool b => exact Option.noConfusion h
        | vnum s => exact Option.noConfusion h
        | vint n => exact Option.noConfusion h
        | varr xs => exact Option.noConfusion h
        | vstr s => exact Option.noConfusion h
      · rw [if_neg h3] at h
        by_cases h4 : foldEq k (strBytes "expected_content_hash") = true
        · rw [if_pos h4] at h
          cases v with
          | vstr s =>
            injection h with h
            right
            refine ⟨h4, ?_⟩
            rw [← h]
          | vnull => injection h with h; left; rw [← h]
          | vbool b => exact Option.noConfusion h
          | vnum s => exact Option.noConfusion h
          | vint n => exact Option.noConfusion h
          | varr xs => exact Option.noConfusion h
          | vmap m => exact Option.noConfusion h
        · rw [if_neg h4] at h
          injection h with h
          left
          rw [← h]

/-- Decoding reads `expected_content_hash` only from members whose key
fold-matches the tag: the decoded field is either the starting value or
the string payload of some matching member. -/
theorem decodeVectorFields_expected : ∀ (obj : GoMap) (tv0 tv : TestVector),
    decodeVectorFields obj tv0 = .ok tv →
    tv.expected_content_hash = tv0.expected_content_hash ∨
    ∃ kv ∈ obj, foldEq kv.1 (strBytes "expected_content_hash") = true ∧
      kv.2 = .vstr tv.expected_content_hash := by
  intro obj
  induction obj with
  | nil =>
    intro tv0 tv h
    left
    simp only [decodeVectorFields, Res.ok.injEq] at h
    rw [← h]
  | cons kv rest ih =>
    intro tv0 tv h
    obtain ⟨k, v⟩ := kv
    simp only [decodeVectorFields] at h
    cases ham : applyVectorMember k v tv0 with
    | none => rw [ham] at h; exact Res.noConfusion h
    | some tv2 =>
      rw [ham] at h
      rcases ih tv2 tv h with hl | ⟨kv2, hm, hp⟩
      · rcases applyVectorMember_expected ham with he | ⟨hf, hv⟩
        · left; rw [hl, he]
        · right
          refine ⟨(k, v), List.mem_cons_self _ _, hf, ?_⟩
          rw [hv, hl]
      · right; exact ⟨kv2, List.mem_cons_of_mem _ hm, hp⟩

/-- A successful `ContentHash` digest is 64 characters long. -/
theorem contentHash_ok_length {obj : MemoryObject} {hsh : Bytes}
    (h : ContentHash obj = .ok hsh) : hsh.length = 64 := by
  unfold ContentHash contentHashFrom contentHashFields at h
  split at h
  · exact Res.noConfusion h
  · split at h
    · exact Res.noConfusion h
    · simp only [] at h
      split at h
      · exact Res.noConfusion h
      · injection h with h
        rw [← h, hexEncode_length, sha256_length]

/-- C10 (amended): the decoder populates `expected_content_hash` only
from members whose name matches the JSON tag up to ASCII
case-insensitivity; when no member of a vector object matches, the
expected digest is the empty string, so — the computed digest being 64
characters — every result the verifier records for that vector has
`pass = false`. -/
theorem c10_expected_hash_source (obj : GoMap) (tv : TestVector)
    (hdec : decodeTestVector obj = .ok tv) :
    (tv.expected_content_hash = [] ∨
      ∃ kv ∈ obj, foldEq kv.1 (strBytes "expected_content_hash") = true ∧
        kv.2 = .vstr tv.expected_content_hash) ∧
    ((∀ kv ∈ obj, foldEq kv.1 (strBytes "expected_content_hash") = false) →
      tv.expected_content_hash = [] ∧
      ∀ rs, (VerifyVectors [tv]).1 = some rs → ∀ r ∈ rs, r.pass = false) := by
  have hexp := decodeVectorFields_expected obj _ tv hdec
  constructor
  · exact hexp
  · intro hno
    have he : tv.expected_content_hash = [] := by
      rcases hexp with hl | ⟨kv, hm, hf, _⟩
      · exact hl
      · rw [hno kv hm] at hf; cases hf
    refine ⟨he, ?_⟩
    intro rs hrs r hr
    cases hch : ContentHash (inputToMemoryObject tv.input).1 with
    | err e =>
      exfalso
      have hnone : (VerifyVectors [tv]).1 = none := by
        unfold VerifyVectors verifyLoop
        simp only [inputToMemoryObject_no_error, hch]
      rw [hnone] at hrs
      exact Option.noConfusion hrs
    | ok got =>
      have hloop := verifyLoop_ok [tv] [] 0 (by
        intro v hv
        rcases List.mem_singleton.mp hv with rfl
        rw [hch]; rfl)
      have h1 : (VerifyVectors [tv]).1 = some [resultOfVector tv] := by
        unfold VerifyVectors
        rw [hloop]
        simp
      rw [h1] at hrs
      injection hrs with hrs
      subst hrs
      rcases List.mem_singleton.mp hr with rfl
      unfold resultOfVector
      rw [hch]
      simp only [he]
      have hlen := contentHash_ok_length hch
      have hgot : got ≠ [] := by
        intro hg
        rw [hg] at hlen
        simp at hlen
      simp [hgot]

/-- Witness object for C10 whose digest sits under the key `hash`
(the key the repository's own test files use). -/
def wrongKeyObject : GoMap :=
  [(strBytes "name", .vstr (strBytes "wrongkey")),
   (strBytes "input", .vmap basicInputMap),
   (strBytes "hash",
    .vstr (strBytes "c3262407645dcdbd1cede212fa0448a3adb2f915f762540c32e0050bbf65e781"))]

/-- The vector `wrongKeyObject` decodes to: the digest under `hash` is
ignored and the expected hash is empty. -/
def wrongKeyVector : TestVector := ⟨strBytes "wrongkey", [], basicInputMap, []⟩

set_option maxRecDepth 1000000 in
/-- Witness for C10's amended statement: with the digest under `hash`,
the expected value is empty and the vector can never pass. -/
theorem c10_expected_hash_witness :
    wrongKeyVector.expected_content_hash = [] ∧
    ∀ rs, (VerifyVectors [wrongKeyVector]).1 = some rs → ∀ r ∈ rs, r.pass = false :=
  (c10_expected_hash_source wrongKeyObject wrongKeyVector rfl).2 (by decide)

/-- Counterexample for C10 as stated: a member named
`EXPECTED_CONTENT_HASH` — not the exact name `expected_content_hash` —
still populates the expected digest (Go's `encoding/json` accepts
case-insensitive matches), so under that "other key" the expected value
is not the empty string. -/
theorem c10_case_insensitive_counterexample :
    decodeTestVector [(strBytes "EXPECTED_CONTENT_HASH",
        .vstr (strBytes "cae6f0ca521caeb1f74470aeca5a75ff1fe098809a034e8a15e0eb4762b4f485"))] =
      .ok ⟨[], [], [],
        strBytes "cae6f0ca521caeb1f74470aeca5a75ff1fe098809a034e8a15e0eb4762b4f485"⟩ ∧
    strBytes "cae6f0ca521caeb1f74470aeca5a75ff1fe098809a034e8a15e0eb4762b4f485" ≠ ([] : Bytes) :=
  ⟨rfl, by decide⟩

end Helios
